import Mathlib

/-!
# Verification of the `indicium` simple search engine (shallow embedding)

This file embeds the core data model and operations of the `indicium`
in-process inverted-keyword search index and proves properties of its
search, autocomplete and fuzzy-matching combinators.

Modelling conventions:

* Rust `String` keywords are modelled as `List Char` (`KW`).  Rust's
  `BTreeMap<String, _>` orders keys by the byte order of their UTF-8
  encodings, which coincides with lexicographic order on code points;
  we use Mathlib's lexicographic linear order on `List Char`.
* `BTreeSet<K>` values are modelled as sorted duplicate-free lists.
* `BTreeMap<String, BTreeSet<K>>` is modelled as an association list of
  `(KW × List K)` pairs, sorted strictly by keyword (`SortedKeys`).
* `f64` similarity scores are modelled by `ℚ` (an abstract stand-in:
  the floating-point metrics themselves are opaque score functions).
* Code of the repository that is not part of the source snapshot
  (tokenizer, `And` search, candidate collection, parts of `TopScores`,
  `search_with`, the Select2 request) is modelled from the spec; each
  such definition carries a doc comment starting `Modelled from the
  spec:`.
-/

/-- A keyword: a Rust `String`, modelled as its list of characters. -/
abbrev KW := List Char

/-- Space-join a list of keywords, as Rust's `Vec::join(" ")`. -/
def joinSpace (l : List KW) : KW :=
  match l with
  | [] => []
  | x :: xs => xs.foldl (fun acc y => acc ++ [' '] ++ y) x

/-- `Vec::pop` splitting: the initial segment and the last element. -/
def popLast {α : Type} (l : List α) : Option (List α × α) :=
  match l.getLast? with
  | none => none
  | some a => some (l.dropLast, a)

theorem popLast_concat {α : Type} (l : List α) (a : α) :
    popLast (l ++ [a]) = some (l, a) := by
  simp [popLast, List.getLast?_concat, List.dropLast_concat]

theorem popLast_nil {α : Type} : popLast ([] : List α) = none := rfl

/-- The association list modelling a `BTreeMap<String, _>` has strictly
increasing keywords. -/
def SortedKeys {α : Type} (l : List (KW × α)) : Prop :=
  List.Pairwise (fun p q => p.1 < q.1) l

instance {α : Type} (l : List (KW × α)) : Decidable (SortedKeys l) :=
  inferInstanceAs (Decidable (List.Pairwise _ l))

/-! ## Lexicographic order facts

Keywords starting with a prefix `r` form a contiguous range of the
lexicographic order: this is what makes the source's
`.range(r..).take_while(starts_with(r))` scan pattern return exactly the
keywords starting with `r`. -/

theorem le_append (r t : KW) : r ≤ r ++ t := by
  induction r with
  | nil => exact List.nil_le
  | cons c r ih =>
    rcases lt_or_eq_of_le ih with h | h
    · exact le_of_lt (List.Lex.cons h)
    · exact le_of_eq (congrArg (c :: ·) h)

theorem le_of_startsWith {r s : KW} (h : r <+: s) : r ≤ s := by
  obtain ⟨t, rfl⟩ := h
  exact le_append r t

theorem startsWith_interval_lt :
    ∀ {r s t : KW}, r ≤ s → ¬ r <+: s → r <+: t → t < s := by
  intro r
  induction r with
  | nil => intro s t _ hns _; exact absurd List.nil_prefix hns
  | cons c r ih =>
    intro s t hrs hns hrt
    obtain ⟨u, rfl⟩ := hrt
    cases s with
    | nil =>
      rcases lt_or_eq_of_le hrs with h | h
      · exact absurd h (List.Lex.not_nil_right _ _)
      · exact absurd h (by simp)
    | cons d s' =>
      rcases lt_or_eq_of_le hrs with hlt | heq
      · have hlex : List.Lex (· < ·) (c :: r) (d :: s') := hlt
        cases hlex with
        | cons h' =>
          have hns' : ¬ r <+: s' := fun hp => hns (List.cons_prefix_cons.mpr ⟨rfl, hp⟩)
          have ht : (r : KW) <+: r ++ u := ⟨u, rfl⟩
          have := ih (le_of_lt h') hns' ht
          exact List.Lex.cons this
        | rel h' => exact List.Lex.rel h'
      · exact absurd (heq ▸ List.prefix_refl (c :: r)) hns

/-- The source's `BTreeMap` scan pattern `.range(r..).take_while(|k| k.starts_with(r))`:
the map is a sorted association list, and `range(r..)` is the sublist of entries
whose keyword is at least `r`. -/
def rangeScan {α : Type} (btm : List (KW × α)) (r : KW) : List (KW × α) :=
  (btm.filter (fun p => r ≤ p.1)).takeWhile (fun p => r <+: p.1)

/-- On a sorted map, the `range` / `take_while` scan returns exactly the entries
whose keyword starts with `r`. -/
theorem rangeScan_eq_filter {α : Type} (btm : List (KW × α)) (r : KW)
    (hs : SortedKeys btm) :
    rangeScan btm r = btm.filter (fun p => r <+: p.1) := by
  induction btm with
  | nil => rfl
  | cons x l ih =>
    have hpw := List.pairwise_cons.mp hs
    have ihl := ih hpw.2
    by_cases hpre : r <+: x.1
    · have hle : r ≤ x.1 := le_of_startsWith hpre
      simp only [rangeScan, List.filter_cons, List.takeWhile_cons] at ihl ⊢
      simp [hpre, hle, ihl]
    · by_cases hle : r ≤ x.1
      · have hnone : ∀ y ∈ l, ¬ (r <+: y.1) := by
          intro y hy hp
          exact absurd (startsWith_interval_lt hle hpre hp)
            (lt_asymm (hpw.1 y hy))
        have h2 : List.filter (fun p => decide (r <+: p.1)) (x :: l) = [] :=
          List.filter_eq_nil_iff.mpr (by
            intro a ha
            simp only [List.mem_cons] at ha
            rcases ha with rfl | ha
            · simpa using hpre
            · simpa using hnone a ha)
        have h3 : List.filter (fun p => decide (r ≤ p.1)) (x :: l)
            = x :: List.filter (fun p => decide (r ≤ p.1)) l := by
          simp [List.filter_cons, hle]
        simp only [rangeScan, h2, h3]
        simp [List.takeWhile_cons, hpre]
      · simp only [rangeScan, List.filter_cons, List.takeWhile_cons] at ihl ⊢
        simp [hpre, hle, ihl]

/-! ## Data model -/

/-- `SearchType` from `src/simple/search_type.rs` (re-exported in `mod.rs`). -/
inductive SearchType where
  | Keyword
  | Or
  | And
  | Live
deriving DecidableEq

/-- `AutocompleteType` from `src/simple/autocomplete_type.rs`. -/
inductive AutocompleteType where
  | Global
  | Context
  | Keyword
deriving DecidableEq

/-- `StrSimType`: the configured similarity metric (`strsim_autocomplete.rs`). -/
inductive StrSimType where
  | DamerauLevenshtein
  | Jaro
  | JaroWinkler
  | Levenshtein
  | SorensenDice
deriving DecidableEq

/-- The search index (`src/simple/search_index.rs` together with the fields added
by the builder-era version in `src/simple/builder.rs`; the source snapshot mixes
crate versions, so this model carries the union of their fields).

Two fields stand in for parts of the program that are not embeddable directly:

* `string_keywords` — the tokenizer (`SearchIndex::string_keywords`, whose
  implementation is not in the source snapshot).  Modelled from the spec as an
  abstract tokenization function carried in the configuration: the claims under
  verification quantify only over its output.
* `simFn` — the floating-point similarity metrics (strsim / eddie crates),
  abstracted as rational-valued score functions selected by `StrSimType`. -/
structure SearchIndex (K : Type) where
  b_tree_map : List (KW × List K)
  search_type : SearchType
  autocomplete_type : AutocompleteType
  strsim_type : Option StrSimType
  strsim_length : Nat
  strsim_minimum_score : ℚ
  fuzzy_minimum_score : ℚ
  split_pattern : Option (List Char)
  case_sensitive : Bool
  minimum_keyword_length : Nat
  maximum_keyword_length : Nat
  maximum_string_length : Option Nat
  exclude_keywords : Option (List KW)
  maximum_autocomplete_options : Nat
  maximum_autocomplete_results : Nat
  maximum_search_results : Nat
  maximum_keys_per_keyword : Nat
  dump_keyword : Option KW
  string_keywords : KW → Bool → List KW
  simFn : StrSimType → KW → KW → ℚ

/-- Modelled from the spec: the internal cap on the number of keys returned by a
single keyword lookup (constant `MAXIMUM_INTERNAL_SEARCH_RESULTS` from
`src/simple/internal/mod.rs`, absent from the snapshot; the spec's fan-out cap). -/
def MAXIMUM_INTERNAL_SEARCH_RESULTS : Nat := 40960

/-- `BTreeMap::get` on the sorted association list. -/
def btmGet {α : Type} (btm : List (KW × α)) (k : KW) : Option α :=
  (btm.find? (fun p => p.1 = k)).map (·.2)

/-- `internal_keyword_search` from `src/simple/internal/search.rs`: the exact
lookup, returning the stored key set capped at the internal maximum. -/
def internal_keyword_search {K : Type} (si : SearchIndex K) (keyword : KW) :
    List K :=
  match btmGet si.b_tree_map keyword with
  | some keys => keys.take MAXIMUM_INTERNAL_SEARCH_RESULTS
  | none => []

/-! ## The fuzzy keyword fallback (claim C3)

`strsim_keyword_levenshtein` (`src/simple/internal/strsim/keyword/levenshtein.rs`)
and `eddie_keyword_global_jaro_winkler`
(`src/simple/internal/eddie/keyword/global_jaro_winkler.rs`) share one pipeline:
scan the prefix range, score each keyword, drop scores below the minimum, and
keep the maximum with `Iterator::max_by` (which returns the **last** maximal
element). -/

/-- `Iterator::max_by` on `(candidate, score)` pairs: the last maximal element. -/
def maxByLast {β : Type} (l : List (β × ℚ)) : Option (β × ℚ) :=
  l.foldl (fun acc q =>
    match acc with
    | none => some q
    | some a => if q.2 < a.2 then some a else some q) none

theorem maxByLast_go {β : Type} (l : List (β × ℚ)) (a : β × ℚ) :
    ∃ m, l.foldl (fun acc q =>
        match acc with
        | none => some q
        | some a => if q.2 < a.2 then some a else some q) (some a) = some m ∧
      (m = a ∨ m ∈ l) ∧ a.2 ≤ m.2 ∧ ∀ q ∈ l, q.2 ≤ m.2 := by
  induction l generalizing a with
  | nil => exact ⟨a, rfl, Or.inl rfl, le_refl _, by simp⟩
  | cons x xs ih =>
    by_cases hx : x.2 < a.2
    · obtain ⟨m, hm, hmem, hle, hall⟩ := ih a
      refine ⟨m, by simpa [hx] using hm, ?_, hle, ?_⟩
      · rcases hmem with h | h
        · exact Or.inl h
        · exact Or.inr (List.mem_cons_of_mem _ h)
      · intro q hq
        rcases List.mem_cons.mp hq with rfl | hq
        · exact le_trans (le_of_lt hx) hle
        · exact hall q hq
    · obtain ⟨m, hm, hmem, hle, hall⟩ := ih x
      refine ⟨m, by simpa [hx] using hm, ?_, ?_, ?_⟩
      · rcases hmem with h | h
        · exact Or.inr (h ▸ List.mem_cons_self _ _)
        · exact Or.inr (List.mem_cons_of_mem _ h)
      · exact le_trans (le_of_not_lt hx) hle
      · intro q hq
        rcases List.mem_cons.mp hq with rfl | hq
        · exact hle
        · exact hall q hq

theorem maxByLast_eq_none_iff {β : Type} (l : List (β × ℚ)) :
    maxByLast l = none ↔ l = [] := by
  cases l with
  | nil => simp [maxByLast]
  | cons x xs =>
    obtain ⟨m, hm, _, _, _⟩ := maxByLast_go xs x
    simp [maxByLast, hm]

theorem maxByLast_spec {β : Type} (l : List (β × ℚ)) (m : β × ℚ)
    (h : maxByLast l = some m) : m ∈ l ∧ ∀ q ∈ l, q.2 ≤ m.2 := by
  cases l with
  | nil => simp [maxByLast] at h
  | cons x xs =>
    obtain ⟨m', hm', hmem, hle, hall⟩ := maxByLast_go xs x
    rw [maxByLast] at h
    simp only [List.foldl_cons] at h
    rw [hm'] at h
    cases h
    constructor
    · rcases hmem with rfl | h
      · exact List.mem_cons_self _ _
      · exact List.mem_cons_of_mem _ h
    · intro q hq
      rcases List.mem_cons.mp hq with rfl | hq
      · exact hle
      · exact hall q hq

/-- The shared pipeline of the single-keyword fuzzy fallback: scan the prefix
range, score, filter by the minimum score, take the `max_by` winner's keyword. -/
def fuzzyKeywordBest {α : Type} (btm : List (KW × α)) (sim : KW → KW → ℚ)
    (minScore : ℚ) (index_range user_keyword : KW) : Option KW :=
  (maxByLast (((rangeScan btm index_range).map
      (fun p => (p.1, sim p.1 user_keyword))).filter
    (fun q => minScore ≤ q.2))).map (·.1)

theorem fuzzyKeywordBest_spec {α : Type} (btm : List (KW × α)) (sim : KW → KW → ℚ)
    (minS : ℚ) (r w : KW) (hs : SortedKeys btm) :
    ((fuzzyKeywordBest btm sim minS r w).isSome ↔
        ∃ p ∈ btm, r <+: p.1 ∧ minS ≤ sim p.1 w) ∧
    ∀ k, fuzzyKeywordBest btm sim minS r w = some k →
      (∃ p ∈ btm, p.1 = k) ∧ r <+: k ∧ minS ≤ sim k w ∧
        ∀ p ∈ btm, r <+: p.1 → minS ≤ sim p.1 w → sim p.1 w ≤ sim k w := by
  have hscan := rangeScan_eq_filter btm r hs
  have hmem : ∀ q, q ∈ ((rangeScan btm r).map
        (fun p => (p.1, sim p.1 w))).filter (fun q => minS ≤ q.2) ↔
      (∃ p ∈ btm, (r <+: p.1) ∧ q = (p.1, sim p.1 w)) ∧ minS ≤ q.2 := by
    intro q
    rw [hscan]
    constructor
    · intro hq
      have h2 := (List.mem_filter.mp hq).2
      obtain ⟨p, hp, rfl⟩ := List.mem_map.mp (List.mem_filter.mp hq).1
      exact ⟨⟨p, (List.mem_filter.mp hp).1,
        by simpa using (List.mem_filter.mp hp).2, rfl⟩, by simpa using h2⟩
    · rintro ⟨⟨p, hp, hpre, rfl⟩, h2⟩
      exact List.mem_filter.mpr ⟨List.mem_map.mpr
        ⟨p, List.mem_filter.mpr ⟨hp, by simpa using hpre⟩, rfl⟩, by simpa using h2⟩
  constructor
  · rw [fuzzyKeywordBest, ← Option.ne_none_iff_isSome, Ne, Option.map_eq_none',
      maxByLast_eq_none_iff]
    constructor
    · intro hne
      obtain ⟨q, hq⟩ := List.exists_mem_of_ne_nil _ hne
      obtain ⟨⟨p, hp, hpre, rfl⟩, h2⟩ := (hmem q).mp hq
      exact ⟨p, hp, hpre, h2⟩
    · rintro ⟨p, hp, hpre, h2⟩ hnil
      have hq := (hmem _).mpr ⟨⟨p, hp, hpre, rfl⟩, h2⟩
      rw [hnil] at hq
      cases hq
  · intro k hk
    rw [fuzzyKeywordBest] at hk
    obtain ⟨m, hm, rfl⟩ := Option.map_eq_some'.mp hk
    obtain ⟨hmm, hmax⟩ := maxByLast_spec _ m hm
    obtain ⟨⟨p, hp, hpre, rfl⟩, h2⟩ := (hmem m).mp hmm
    refine ⟨⟨p, hp, rfl⟩, hpre, h2, ?_⟩
    intro p' hp' hpre' h2'
    exact hmax (p'.1, sim p'.1 w) ((hmem _).mpr ⟨⟨p', hp', hpre', rfl⟩, h2'⟩)

/-- `strsim_keyword_levenshtein` from
`src/simple/internal/strsim/keyword/levenshtein.rs`; the floating-point
`normalized_levenshtein` metric is the abstract score function
`simFn Levenshtein`, the threshold is `strsim_minimum_score`. -/
def strsim_keyword_levenshtein {K : Type} (si : SearchIndex K)
    (index_range user_keyword : KW) : Option KW :=
  fuzzyKeywordBest si.b_tree_map (si.simFn StrSimType.Levenshtein)
    si.strsim_minimum_score index_range user_keyword

/-- `eddie_keyword_global_jaro_winkler` from
`src/simple/internal/eddie/keyword/global_jaro_winkler.rs`; the floating-point
`eddie::JaroWinkler::similarity` metric is the abstract score function
`simFn JaroWinkler`, the threshold is `fuzzy_minimum_score`. -/
def eddie_keyword_global_jaro_winkler {K : Type} (si : SearchIndex K)
    (index_range user_keyword : KW) : Option KW :=
  fuzzyKeywordBest si.b_tree_map (si.simFn StrSimType.JaroWinkler)
    si.fuzzy_minimum_score index_range user_keyword

/-! ## TopScores (claim C4) -/

/-- Replace-or-append insertion into an association list: the semantics of the
keyword-keyed `HashMap::insert` used by `TopScores`. -/
def mapInsert {α : Type} (l : List (KW × α)) (k : KW) (v : α) : List (KW × α) :=
  if l.any (fun p => p.1 = k) then
    l.map (fun p => if p.1 = k then (k, v) else p)
  else l ++ [(k, v)]

theorem length_mapInsert_le {α : Type} (l : List (KW × α)) (k : KW) (v : α) :
    (mapInsert l k v).length ≤ l.length + 1 := by
  rw [mapInsert]
  split
  · simp
  · simp

theorem length_filter_lt_of_mem {α : Type} (p : α → Bool) (l : List α) (x : α)
    (hx : x ∈ l) (hpx : ¬ p x = true) : (l.filter p).length < l.length := by
  induction l with
  | nil => cases hx
  | cons y ys ih =>
    rcases List.mem_cons.mp hx with rfl | hx
    · rw [List.filter_cons_of_neg hpx]
      exact Nat.lt_succ_of_le (List.length_filter_le _ _)
    · rw [List.filter_cons]
      split
      · simpa using Nat.succ_lt_succ (ih hx)
      · exact Nat.lt_succ_of_lt (ih hx)

/-- The bounded best-N score tracker `TopScores`.  The snapshot contains only
`insert.rs`; the struct itself and the other methods are modelled from the spec:
the retained entries (keyword, keys, score), the cached lowest retained entry
("bottom"), and the capacity. -/
structure TopScores (K S : Type) where
  top : List (KW × List K × S)
  bottom : Option (KW × S)
  capacity : Nat

namespace TopScores

/-- `TopScores::with_capacity`: empty, no cached bottom. -/
def with_capacity (K S : Type) (c : Nat) : TopScores K S := ⟨[], none, c⟩

variable {K S : Type} [LinearOrder S]

/-- The retained (keyword, score) pairs. -/
def scoreEntries (l : List (KW × List K × S)) : List (KW × S) :=
  l.map (fun e => (e.1, e.2.2))

/-- Modelled from the spec: `find_bottom` — scan the retained entries for the
lowest score and cache it as the bottom. -/
def find_bottom (ts : TopScores K S) : TopScores K S :=
  { ts with bottom := ts.top.foldl (fun acc e =>
      match acc with
      | none => some (e.1, e.2.2)
      | some b => if e.2.2 < b.2 then some (e.1, e.2.2) else some b) none }

/-- Modelled from the spec: `remove_bottom` — remove the cached bottom entry
from the retained collection and invalidate the cache. -/
def remove_bottom (ts : TopScores K S) : TopScores K S :=
  match ts.bottom with
  | none => ts
  | some b => { ts with top := ts.top.filter (fun e => ¬ e.1 = b.1), bottom := none }

/-- `TopScores::insert` from `src/simple/internal/top_scores/insert.rs`: blind
insertion below capacity; at capacity, locate the bottom (cached or freshly
found) and evict it exactly when the new score is strictly higher. -/
def insert (ts : TopScores K S) (keyword : KW) (keys : List K) (score : S) :
    TopScores K S :=
  if ts.capacity ≤ ts.top.length then
    let ts1 := if ts.bottom.isNone then ts.find_bottom else ts
    match ts1.bottom with
    | some b =>
        if b.2 < score then
          let ts2 := ts1.remove_bottom
          { ts2 with top := mapInsert ts2.top keyword (keys, score) }
        else ts1
    | none => ts1
  else { ts with top := mapInsert ts.top keyword (keys, score) }

/-- Modelled from the spec: `results` — the retained (keyword, keys) pairs in
score-descending order. -/
def results (ts : TopScores K S) : List (KW × List K) :=
  (List.insertionSort (fun a b : KW × List K × S => b.2.2 ≤ a.2.2) ts.top).map
    (fun e => (e.1, e.2.1))

/-- A sequence of `insert` calls. -/
def insertAll (ts : TopScores K S) (ops : List (KW × List K × S)) : TopScores K S :=
  ops.foldl (fun t e => t.insert e.1 e.2.1 e.2.2) ts

theorem scoreEntries_cons (x : KW × List K × S) (xs : List (KW × List K × S)) :
    scoreEntries (x :: xs) = (x.1, x.2.2) :: scoreEntries xs := rfl

theorem mem_scoreEntries_cons {m : KW × S} {x : KW × List K × S}
    {xs : List (KW × List K × S)} :
    m ∈ scoreEntries (x :: xs) ↔ m = (x.1, x.2.2) ∨ m ∈ scoreEntries xs := by
  rw [scoreEntries_cons, List.mem_cons]

theorem find_bottom_go (l : List (KW × List K × S)) (a : KW × S) :
    ∃ m, l.foldl (fun acc e =>
        match acc with
        | none => some (e.1, e.2.2)
        | some b => if e.2.2 < b.2 then some (e.1, e.2.2) else some b) (some a) = some m ∧
      (m = a ∨ m ∈ scoreEntries l) ∧ m.2 ≤ a.2 ∧ ∀ e ∈ scoreEntries l, m.2 ≤ e.2 := by
  induction l generalizing a with
  | nil => exact ⟨a, rfl, Or.inl rfl, le_refl _, fun e he => absurd he (by intro h; cases h)⟩
  | cons x xs ih =>
    by_cases hx : x.2.2 < a.2
    · obtain ⟨m, hm, hmem, hle, hall⟩ := ih (x.1, x.2.2)
      refine ⟨m, by simpa [hx] using hm, ?_, ?_, ?_⟩
      · rcases hmem with h | h
        · exact Or.inr (mem_scoreEntries_cons.mpr (Or.inl h))
        · exact Or.inr (mem_scoreEntries_cons.mpr (Or.inr h))
      · exact le_trans hle (le_of_lt hx)
      · intro e he
        rcases mem_scoreEntries_cons.mp he with rfl | he
        · exact hle
        · exact hall e he
    · obtain ⟨m, hm, hmem, hle, hall⟩ := ih a
      refine ⟨m, by simpa [hx] using hm, ?_, hle, ?_⟩
      · rcases hmem with h | h
        · exact Or.inl h
        · exact Or.inr (mem_scoreEntries_cons.mpr (Or.inr h))
      · intro e he
        rcases mem_scoreEntries_cons.mp he with rfl | he
        · exact le_trans hle (le_of_not_lt hx)
        · exact hall e he

theorem find_bottom_spec (ts : TopScores K S) (h : ts.top ≠ []) :
    ∃ b, (ts.find_bottom).bottom = some b ∧ b ∈ scoreEntries ts.top ∧
      ∀ e ∈ scoreEntries ts.top, b.2 ≤ e.2 := by
  rcases hl : ts.top with _ | ⟨x, xs⟩
  · exact absurd hl h
  · obtain ⟨m, hm, hmem, hle, hall⟩ := find_bottom_go xs (x.1, x.2.2)
    refine ⟨m, ?_, ?_, ?_⟩
    · rw [find_bottom, hl]
      simpa using hm
    · rcases hmem with rfl | hmm
      · exact mem_scoreEntries_cons.mpr (Or.inl rfl)
      · exact mem_scoreEntries_cons.mpr (Or.inr hmm)
    · intro e he
      rcases mem_scoreEntries_cons.mp he with rfl | he
      · exact hle
      · exact hall e he

theorem find_bottom_nil (ts : TopScores K S) (h : ts.top = []) :
    (ts.find_bottom).bottom = none := by
  rw [find_bottom, h]
  rfl

end TopScores

namespace TopScores

variable {K S : Type} [LinearOrder S]

theorem exists_of_mem_scoreEntries {l : List (KW × List K × S)} {b : KW × S}
    (h : b ∈ scoreEntries l) : ∃ e ∈ l, e.1 = b.1 := by
  obtain ⟨e, he, heq⟩ := List.mem_map.mp h
  exact ⟨e, he, by rw [← heq]⟩

theorem find_bottom_top (ts : TopScores K S) : (ts.find_bottom).top = ts.top := rfl

theorem find_bottom_capacity (ts : TopScores K S) :
    (ts.find_bottom).capacity = ts.capacity := rfl

/-- Invariant of every `TopScores` state reachable from
`with_capacity c` by `insert` calls: the capacity is `c`, at most `c`
entries are retained, and a cached bottom is a lowest-scoring retained
entry cached only at capacity. -/
def Good (c : Nat) (ts : TopScores K S) : Prop :=
  ts.capacity = c ∧ ts.top.length ≤ c ∧
    ∀ b, ts.bottom = some b →
      b ∈ scoreEntries ts.top ∧ (∀ e ∈ scoreEntries ts.top, b.2 ≤ e.2) ∧
        c ≤ ts.top.length

theorem good_with_capacity (c : Nat) : Good c (with_capacity K S c) :=
  ⟨rfl, by simp [with_capacity], fun b hb => by cases hb⟩

theorem length_filter_bottom {ts : TopScores K S} {b : KW × S}
    (hb : b ∈ scoreEntries ts.top) :
    (ts.top.filter (fun e => ¬ e.1 = b.1)).length < ts.top.length := by
  obtain ⟨e, he, he1⟩ := exists_of_mem_scoreEntries hb
  exact length_filter_lt_of_mem _ _ e he (by simp [he1])

theorem good_insert {c : Nat} {ts : TopScores K S} (hg : Good c ts)
    (k : KW) (v : List K) (s : S) : Good c (ts.insert k v s) := by
  obtain ⟨hcap, hlen, hbot⟩ := hg
  by_cases hfull : ts.capacity ≤ ts.top.length
  · cases hb : ts.bottom with
    | some b =>
      obtain ⟨hbmem, hbmin, _⟩ := hbot b hb
      by_cases hs : b.2 < s
      · have hres : ts.insert k v s =
            { ts with top := mapInsert (ts.top.filter (fun e => ¬ e.1 = b.1)) k (v, s),
                      bottom := none } := by
          simp [insert, hfull, hb, remove_bottom, hs]
        rw [hres]
        refine ⟨hcap, ?_, fun b' hb' => by cases hb'⟩
        calc (mapInsert (ts.top.filter (fun e => ¬ e.1 = b.1)) k (v, s)).length
            ≤ (ts.top.filter (fun e => ¬ e.1 = b.1)).length + 1 :=
              length_mapInsert_le _ _ _
          _ ≤ ts.top.length := length_filter_bottom hbmem
          _ ≤ c := hlen
      · have hres : ts.insert k v s = ts := by
          simp [insert, hfull, hb, hs]
        rw [hres]
        exact ⟨hcap, hlen, hbot⟩
    | none =>
      rcases hTop : ts.top with _ | ⟨x, xs⟩
      · have hfb := find_bottom_nil ts hTop
        have hres : ts.insert k v s = ts.find_bottom := by
          simp [insert, hfull, hb, hfb]
        rw [hres]
        exact ⟨hcap, by rw [find_bottom_top]; exact hlen,
          fun b' hb' => absurd (hfb ▸ hb') (by simp)⟩
      · obtain ⟨b, hfb, hbmem, hbmin⟩ := find_bottom_spec ts (by rw [hTop]; simp)
        by_cases hs : b.2 < s
        · have hres : ts.insert k v s =
              { ts.find_bottom with
                  top := mapInsert ((ts.find_bottom).top.filter
                    (fun e => ¬ e.1 = b.1)) k (v, s),
                  bottom := none } := by
            simp [insert, hfull, hb, hfb, remove_bottom]
            simp [hs]
          rw [hres]
          refine ⟨hcap, ?_, fun b' hb' => by cases hb'⟩
          rw [find_bottom_top]
          calc (mapInsert (ts.top.filter (fun e => ¬ e.1 = b.1)) k (v, s)).length
              ≤ (ts.top.filter (fun e => ¬ e.1 = b.1)).length + 1 :=
                length_mapInsert_le _ _ _
            _ ≤ ts.top.length := length_filter_bottom hbmem
            _ ≤ c := hlen
        · have hres : ts.insert k v s = ts.find_bottom := by
            simp [insert, hfull, hb, hfb, hs]
          rw [hres]
          refine ⟨hcap, by rw [find_bottom_top]; exact hlen, fun b' hb' => ?_⟩
          rw [hfb] at hb'
          cases hb'
          rw [find_bottom_top]
          exact ⟨hbmem, hbmin, hcap ▸ hfull⟩
  · have hres : ts.insert k v s =
        { ts with top := mapInsert ts.top k (v, s) } := by
      simp [insert, hfull]
    rw [hres]
    refine ⟨hcap, ?_, fun b' hb' => ?_⟩
    · calc (mapInsert ts.top k (v, s)).length ≤ ts.top.length + 1 :=
          length_mapInsert_le _ _ _
        _ ≤ c := by omega
    · obtain ⟨_, _, hge⟩ := hbot b' hb'
      rw [hcap] at hfull
      exact absurd hge hfull

theorem good_insertAll {c : Nat} {ts : TopScores K S} (hg : Good c ts)
    (ops : List (KW × List K × S)) : Good c (ts.insertAll ops) := by
  induction ops generalizing ts with
  | nil => exact hg
  | cons op ops ih => exact ih (good_insert hg op.1 op.2.1 op.2.2)

end TopScores

namespace TopScores

variable {K S : Type} [LinearOrder S]

theorem insert_spec {c : Nat} {ts : TopScores K S} (hg : Good c ts)
    (k : KW) (v : List K) (s : S) :
    (ts.top.length < c → (ts.insert k v s).top = mapInsert ts.top k (v, s)) ∧
    (c ≤ ts.top.length → ts.top ≠ [] →
      ∃ b, b ∈ scoreEntries ts.top ∧ (∀ e ∈ scoreEntries ts.top, b.2 ≤ e.2) ∧
        (b.2 < s → (ts.insert k v s).top
          = mapInsert (ts.top.filter (fun e => ¬ e.1 = b.1)) k (v, s)) ∧
        (¬ b.2 < s → (ts.insert k v s).top = ts.top)) ∧
    (c ≤ ts.top.length → ts.top = [] → (ts.insert k v s).top = ts.top) := by
  obtain ⟨hcap, hlen, hbot⟩ := hg
  refine ⟨?_, ?_, ?_⟩
  · intro hlt
    have hfull : ¬ ts.capacity ≤ ts.top.length := by omega
    simp [insert, hfull]
  · intro hge hne
    have hfull : ts.capacity ≤ ts.top.length := by omega
    cases hb : ts.bottom with
    | some b =>
      obtain ⟨hbmem, hbmin, _⟩ := hbot b hb
      refine ⟨b, hbmem, hbmin, ?_, ?_⟩
      · intro hs
        simp [insert, hfull, hb, remove_bottom, hs]
      · intro hs
        simp [insert, hfull, hb, hs]
    | none =>
      obtain ⟨b, hfb, hbmem, hbmin⟩ := find_bottom_spec ts hne
      refine ⟨b, hbmem, hbmin, ?_, ?_⟩
      · intro hs
        have hres : (ts.insert k v s).top
            = mapInsert ((ts.find_bottom).top.filter (fun e => ¬ e.1 = b.1)) k (v, s) := by
          simp [insert, hfull, hb, hfb, remove_bottom]
          simp [hs]
        rw [hres, find_bottom_top]
      · intro hs
        have hres : ts.insert k v s = ts.find_bottom := by
          simp [insert, hfull, hb, hfb, hs]
        rw [hres, find_bottom_top]
  · intro hge hnil
    have hfull : ts.capacity ≤ ts.top.length := by omega
    have hbnone : ts.bottom = none := by
      cases hb : ts.bottom with
      | none => rfl
      | some b =>
        obtain ⟨hbmem, _, _⟩ := hbot b hb
        rw [hnil] at hbmem
        cases hbmem
    have hfb := find_bottom_nil ts hnil
    have hres : ts.insert k v s = ts.find_bottom := by
      simp [insert, hfull, hbnone, hfb]
    rw [hres, find_bottom_top]

end TopScores

/-- **C4.** Starting from an empty `TopScores` with capacity `c`, `insert`
inserts unconditionally while fewer than `c` entries are retained; once `c`
entries are retained it evicts a lowest-scoring retained entry and inserts the
candidate exactly when the candidate's score is strictly higher than the lowest
retained score, and discards the candidate otherwise; and the number of
retained entries never exceeds `c`.  (`TopScores::insert`,
`src/simple/internal/top_scores/insert.rs`; struct and helper methods modelled
from the spec.) -/
theorem topScores_insert_bounded_bestN {K S : Type} [LinearOrder S] (c : Nat)
    (ts : TopScores K S)
    (hreach : ∃ ops, ts = TopScores.insertAll (TopScores.with_capacity K S c) ops)
    (k : KW) (v : List K) (s : S) :
    ts.top.length ≤ c ∧
    (ts.top.length < c → (ts.insert k v s).top = mapInsert ts.top k (v, s)) ∧
    (c ≤ ts.top.length → ts.top ≠ [] →
      ∃ b, b ∈ TopScores.scoreEntries ts.top ∧
        (∀ e ∈ TopScores.scoreEntries ts.top, b.2 ≤ e.2) ∧
        (b.2 < s → (ts.insert k v s).top
          = mapInsert (ts.top.filter (fun e => ¬ e.1 = b.1)) k (v, s)) ∧
        (¬ b.2 < s → (ts.insert k v s).top = ts.top)) ∧
    (c ≤ ts.top.length → ts.top = [] → (ts.insert k v s).top = ts.top) := by
  obtain ⟨ops, rfl⟩ := hreach
  have hg := TopScores.good_insertAll (TopScores.good_with_capacity c) ops
  obtain ⟨h1, h2, h3⟩ := TopScores.insert_spec hg k v s
  exact ⟨hg.2.1, h1, h2, h3⟩

/-- Witness for C4 at a concrete input: capacity 1, one prior insertion. -/
theorem topScores_insert_bounded_bestN_witness :
    (TopScores.insertAll (TopScores.with_capacity Nat Int 1)
      [(['a'], [1], (5 : Int))]).top.length ≤ 1 :=
  (topScores_insert_bounded_bestN 1 _ ⟨[(['a'], [1], (5 : Int))], rfl⟩
    ['b'] [2] 7).1

/-- **C3.** For every index (sorted keyword map), prefix `r` and user keyword
`w`: the single-keyword fuzzy search fallback `strsim_keyword_levenshtein`
(and likewise `eddie_keyword_global_jaro_winkler`) returns `some k` iff some
index keyword starting with `r` has similarity to `w` at or above the
configured minimum score, and such a `k` is a prefix-matching keyword of
maximal score among the eligible candidates (Rust's `max_by` resolves ties
towards the last-scanned keyword). -/
theorem fuzzy_keyword_fallback_best_match {K : Type} (si : SearchIndex K)
    (hs : SortedKeys si.b_tree_map) (r w : KW) :
    (((strsim_keyword_levenshtein si r w).isSome ↔
        ∃ p ∈ si.b_tree_map, r <+: p.1 ∧
          si.strsim_minimum_score ≤ si.simFn StrSimType.Levenshtein p.1 w) ∧
      ∀ k, strsim_keyword_levenshtein si r w = some k →
        (∃ p ∈ si.b_tree_map, p.1 = k) ∧ r <+: k ∧
          si.strsim_minimum_score ≤ si.simFn StrSimType.Levenshtein k w ∧
          ∀ p ∈ si.b_tree_map, r <+: p.1 →
            si.strsim_minimum_score ≤ si.simFn StrSimType.Levenshtein p.1 w →
            si.simFn StrSimType.Levenshtein p.1 w
              ≤ si.simFn StrSimType.Levenshtein k w) ∧
    (((eddie_keyword_global_jaro_winkler si r w).isSome ↔
        ∃ p ∈ si.b_tree_map, r <+: p.1 ∧
          si.fuzzy_minimum_score ≤ si.simFn StrSimType.JaroWinkler p.1 w) ∧
      ∀ k, eddie_keyword_global_jaro_winkler si r w = some k →
        (∃ p ∈ si.b_tree_map, p.1 = k) ∧ r <+: k ∧
          si.fuzzy_minimum_score ≤ si.simFn StrSimType.JaroWinkler k w ∧
          ∀ p ∈ si.b_tree_map, r <+: p.1 →
            si.fuzzy_minimum_score ≤ si.simFn StrSimType.JaroWinkler p.1 w →
            si.simFn StrSimType.JaroWinkler p.1 w
              ≤ si.simFn StrSimType.JaroWinkler k w) :=
  ⟨fuzzyKeywordBest_spec _ _ _ _ _ hs, fuzzyKeywordBest_spec _ _ _ _ _ hs⟩

/-- A concrete index configuration shared by the witnesses below. -/
def witnessBase : SearchIndex Nat where
  b_tree_map := []
  search_type := SearchType.Live
  autocomplete_type := AutocompleteType.Context
  strsim_type := none
  strsim_length := 0
  strsim_minimum_score := 0
  fuzzy_minimum_score := 0
  split_pattern := none
  case_sensitive := false
  minimum_keyword_length := 1
  maximum_keyword_length := 24
  maximum_string_length := some 24
  exclude_keywords := none
  maximum_autocomplete_options := 5
  maximum_autocomplete_results := 5
  maximum_search_results := 100
  maximum_keys_per_keyword := 40960
  dump_keyword := none
  string_keywords := fun _ _ => []
  simFn := fun _ _ _ => 0

/-- Concrete index for the C3 witness: one keyword, constant similarity 1. -/
def c3Idx : SearchIndex Nat :=
  { witnessBase with
      b_tree_map := [("apple".toList, [1])]
      simFn := fun _ _ _ => 1 }

/-- Witness for C3 at a concrete input. -/
theorem fuzzy_keyword_fallback_best_match_witness :
    (strsim_keyword_levenshtein c3Idx "ap".toList "apply".toList).isSome :=
  (fuzzy_keyword_fallback_best_match c3Idx (by decide) "ap".toList
    "apply".toList).1.1.mpr
    ⟨("apple".toList, [1]), by decide, by decide, by decide⟩

/-! ## Fuzzy autocomplete (claims C5, C10) -/

/-- The shared per-metric fuzzy autocomplete pipeline, translated from
`strsim_autocomplete_global_jaro`
(`src/simple/internal/strsim/autocomplete/global_jaro.rs`): scan the prefix
range, score each index keyword against the user's keyword, and offer every
candidate whose score `is_normal` (nonzero, in the rational model of `f64`) and
at or above the minimum to a `TopScores` of capacity
`maximum_autocomplete_options`; the result is the retained candidates in
score-descending order. -/
def strsim_autocomplete_scored {K : Type} (si : SearchIndex K)
    (sim : KW → KW → ℚ) (index_range user_keyword : KW) : List (KW × List K) :=
  TopScores.results
    ((rangeScan si.b_tree_map index_range).foldl
      (fun ts p =>
        let score := sim p.1 user_keyword
        if ¬ score = 0 ∧ si.strsim_minimum_score ≤ score then
          ts.insert p.1 p.2 score
        else ts)
      (TopScores.with_capacity K ℚ si.maximum_autocomplete_options))

/-- `strsim_autocomplete` from
`src/simple/internal/strsim/strsim_autocomplete.rs`: compute the candidate
`index_range` from the configured prefix length — an empty result when the
user's keyword is shorter than a positive configured length, the whole index
(empty range) when the length is zero — then dispatch on the configured
metric.  The per-metric arms (`strsim_autocomplete_levenshtein`, …) are not in
the snapshot; each one is the shared scored pipeline applied to its metric
(cf. `global_jaro.rs`), with the candidate keywords extracted. -/
def strsim_autocomplete {K : Type} (si : SearchIndex K) (user_keyword : KW) :
    List KW :=
  if 0 < si.strsim_length ∧ user_keyword.length < si.strsim_length then []
  else
    match si.strsim_type with
    | none => []
    | some t =>
      (strsim_autocomplete_scored si (si.simFn t)
        (user_keyword.take si.strsim_length) user_keyword).map (fun p => p.1)

theorem mem_mapInsert {α : Type} {l : List (KW × α)} {k : KW} {v : α}
    {e : KW × α} (h : e ∈ mapInsert l k v) : e ∈ l ∨ e = (k, v) := by
  rw [mapInsert] at h
  split at h
  · obtain ⟨p, hp, heq⟩ := List.mem_map.mp h
    by_cases hk : p.1 = k
    · rw [if_pos hk] at heq
      exact Or.inr heq.symm
    · rw [if_neg hk] at heq
      exact Or.inl (heq ▸ hp)
  · rcases List.mem_append.mp h with h | h
    · exact Or.inl h
    · exact Or.inr (List.mem_singleton.mp h)

theorem TopScores.insert_top_cases {K S : Type} [LinearOrder S]
    (ts : TopScores K S) (k : KW) (v : List K) (s : S) :
    (ts.insert k v s).top = ts.top ∨
    ∃ l, (∀ e ∈ l, e ∈ ts.top) ∧ (ts.insert k v s).top = mapInsert l k (v, s) := by
  by_cases hfull : ts.capacity ≤ ts.top.length
  · cases hb : ts.bottom with
    | some b =>
      by_cases hs : b.2 < s
      · refine Or.inr ⟨ts.top.filter (fun e => ¬ e.1 = b.1),
          fun e he => (List.mem_filter.mp he).1, ?_⟩
        simp [TopScores.insert, hfull, hb, TopScores.remove_bottom, hs]
      · exact Or.inl (by simp [TopScores.insert, hfull, hb, hs])
    | none =>
      by_cases hTop : ts.top = []
      · have hfb := TopScores.find_bottom_nil ts hTop
        exact Or.inl (by simp [TopScores.insert, hfull, hb, hfb,
          TopScores.find_bottom_top])
      · obtain ⟨b, hfb, _, _⟩ := TopScores.find_bottom_spec ts hTop
        by_cases hs : b.2 < s
        · refine Or.inr ⟨ts.top.filter (fun e => ¬ e.1 = b.1),
            fun e he => (List.mem_filter.mp he).1, ?_⟩
          simp [TopScores.insert, hfull, hb, hfb, hs,
            TopScores.remove_bottom, TopScores.find_bottom_top]
        · exact Or.inl (by simp [TopScores.insert, hfull, hb, hfb, hs,
            TopScores.find_bottom_top])
  · refine Or.inr ⟨ts.top, fun e he => he, ?_⟩
    simp [TopScores.insert, hfull]

theorem scored_fold_keywords {K : Type} (si : SearchIndex K)
    (sim : KW → KW → ℚ) (w : KW) (P : KW → Prop) :
    ∀ (scan : List (KW × List K)) (ts0 : TopScores K ℚ),
      (∀ e ∈ ts0.top, P e.1) → (∀ p ∈ scan, P p.1) →
      ∀ e ∈ (scan.foldl (fun ts p =>
          let score := sim p.1 w
          if ¬ score = 0 ∧ si.strsim_minimum_score ≤ score then
            ts.insert p.1 p.2 score
          else ts) ts0).top, P e.1 := by
  intro scan
  induction scan with
  | nil => intro ts0 h0 _ e he; exact h0 e he
  | cons p ps ih =>
    intro ts0 h0 hscan e he
    simp only [List.foldl_cons] at he
    refine ih _ ?_ (fun q hq => hscan q (List.mem_cons_of_mem _ hq)) e he
    intro e' he'
    split at he'
    · rcases TopScores.insert_top_cases ts0 p.1 p.2 (sim p.1 w) with hcase | ⟨l, hl, hcase⟩
      · exact h0 e' (hcase ▸ he')
      · rcases mem_mapInsert (hcase ▸ he') with h | h
        · exact h0 e' (hl e' h)
        · rw [h]
          exact hscan p (List.mem_cons_self _ _)
    · exact h0 e' he'

theorem mem_results_keyword {K : Type} (ts : TopScores K ℚ) {p : KW × List K}
    (h : p ∈ TopScores.results ts) : ∃ e ∈ ts.top, e.1 = p.1 := by
  obtain ⟨e, he, heq⟩ := List.mem_map.mp h
  have hmem : e ∈ ts.top := (List.perm_insertionSort _ _).mem_iff.mp he
  exact ⟨e, hmem, by rw [← heq]⟩

theorem rangeScan_empty_range {α : Type} (btm : List (KW × α)) :
    rangeScan btm ([] : KW) = btm := by
  induction btm with
  | nil => rfl
  | cons x l ih =>
    have h1 : (([] : KW) ≤ x.1) := List.nil_le
    have h2 : (([] : KW) <+: x.1) := List.nil_prefix
    simp only [rangeScan, List.filter_cons, List.takeWhile_cons] at ih ⊢
    simp [h1, h2, ih]

/-- **C5.** For every index and user keyword `w`, with configured fuzzy prefix
length `L = strsim_length`: if `L > 0` and `w` is shorter than `L`, fuzzy
matching is skipped (`strsim_autocomplete` returns the empty list); if `L > 0`
and `w` is at least `L` long, the candidate scan ranges over exactly the index
keywords sharing `w`'s first `L` characters (so every returned keyword shares
them); if `L = 0`, the candidate scan ranges over the whole index. -/
theorem strsim_autocomplete_prefix_scoping {K : Type} (si : SearchIndex K)
    (hs : SortedKeys si.b_tree_map) (w : KW) :
    (0 < si.strsim_length → w.length < si.strsim_length →
      strsim_autocomplete si w = []) ∧
    (0 < si.strsim_length → si.strsim_length ≤ w.length →
      rangeScan si.b_tree_map (w.take si.strsim_length)
          = si.b_tree_map.filter (fun p => (w.take si.strsim_length) <+: p.1) ∧
      ∀ k ∈ strsim_autocomplete si w, (w.take si.strsim_length) <+: k) ∧
    (si.strsim_length = 0 →
      rangeScan si.b_tree_map (w.take si.strsim_length) = si.b_tree_map) := by
  refine ⟨?_, ?_, ?_⟩
  · intro h1 h2
    rw [strsim_autocomplete, if_pos ⟨h1, h2⟩]
  · intro h1 h2
    refine ⟨rangeScan_eq_filter _ _ hs, ?_⟩
    intro k hk
    rw [strsim_autocomplete, if_neg (fun hcon => (not_lt.mpr h2) hcon.2)] at hk
    cases hst : si.strsim_type with
    | none =>
      rw [hst] at hk
      cases hk
    | some t =>
      rw [hst] at hk
      obtain ⟨p, hp, rfl⟩ := List.mem_map.mp hk
      obtain ⟨e, he, he1⟩ := mem_results_keyword _ hp
      rw [← he1]
      refine scored_fold_keywords si (si.simFn t) w
        (fun kw => (w.take si.strsim_length) <+: kw) _ _
        (fun e' he' => absurd he' (by simp [TopScores.with_capacity])) ?_ e he
      intro q hq
      rw [rangeScan_eq_filter _ _ hs] at hq
      simpa using (List.mem_filter.mp hq).2
  · intro h0
    rw [h0, List.take_zero]
    exact rangeScan_empty_range _

/-- Concrete index for the C5 witness: prefix length 2, Levenshtein metric. -/
def c5Idx : SearchIndex Nat :=
  { witnessBase with
      b_tree_map := [("apple".toList, [1]), ("zebra".toList, [2])]
      strsim_type := some StrSimType.Levenshtein
      strsim_length := 2
      simFn := fun _ _ _ => 1 }

/-- Witness for C5 at a concrete input. -/
theorem strsim_autocomplete_prefix_scoping_witness :
    rangeScan c5Idx.b_tree_map ("apz".toList.take 2)
      = c5Idx.b_tree_map.filter (fun p => ("apz".toList.take 2) <+: p.1) :=
  ((strsim_autocomplete_prefix_scoping c5Idx (by decide) "apz".toList).2.1
    (by decide) (by decide)).1

/-- **C10.** If no fuzzy algorithm is configured (`strsim_type` is `None`),
`strsim_autocomplete` returns the empty vector: the fuzzy fallback is silently
disabled rather than failing or scanning the index. -/
theorem strsim_autocomplete_none_disabled {K : Type} (si : SearchIndex K)
    (h : si.strsim_type = none) (w : KW) : strsim_autocomplete si w = [] := by
  rw [strsim_autocomplete]
  split
  · rfl
  · rw [h]

/-- Witness for C10 at a concrete input. -/
theorem strsim_autocomplete_none_disabled_witness :
    strsim_autocomplete witnessBase "ab".toList = [] :=
  strsim_autocomplete_none_disabled witnessBase rfl "ab".toList

/-! ## Search and autocomplete engines (claims C1, C2, C6, C8) -/

/-- Collect a list into a `BTreeSet`: ascending order, duplicates removed. -/
def btreeSetOfList {α : Type} [LinearOrder α] (l : List α) : List α :=
  List.insertionSort (fun a b => a ≤ b) l.dedup

theorem mem_btreeSetOfList {α : Type} [LinearOrder α] {a : α} {l : List α} :
    a ∈ btreeSetOfList l ↔ a ∈ l := by
  rw [btreeSetOfList, (List.perm_insertionSort _ _).mem_iff, List.mem_dedup]

theorem length_btreeSetOfList_le {α : Type} [LinearOrder α] (l : List α) :
    (btreeSetOfList l).length ≤ l.length := by
  rw [btreeSetOfList, (List.perm_insertionSort _ _).length_eq]
  exact (List.dedup_sublist l).length_le

/-- Modelled from the spec: the per-metric single-keyword search fallback
dispatcher with candidate scoping (§4.5, not in the snapshot): fuzzy matching
is skipped when the user's keyword is shorter than a positive configured prefix
length and when no metric is configured; otherwise the best-scoring
prefix-scoped keyword at or above the minimum score (cf.
`strsim_keyword_levenshtein`). -/
def strsim_keyword {K : Type} (si : SearchIndex K) (user_keyword : KW) :
    Option KW :=
  if 0 < si.strsim_length ∧ user_keyword.length < si.strsim_length then none
  else
    match si.strsim_type with
    | none => none
    | some t =>
      fuzzyKeywordBest si.b_tree_map (si.simFn t) si.strsim_minimum_score
        (user_keyword.take si.strsim_length) user_keyword

/-- Modelled from the spec: the per-keyword match of the search engines — exact
lookup, with the fuzzy matcher's best keyword's key set substituted on a miss
(§4.3, §4.5). -/
def keyword_search_with_fallback {K : Type} (si : SearchIndex K) (kw : KW) :
    List K :=
  let exactKeys := internal_keyword_search si kw
  if exactKeys.isEmpty then
    match strsim_keyword si kw with
    | some k => internal_keyword_search si k
    | none => []
  else exactKeys

/-- Modelled from the spec: `internal_search_and` — `And` search over a keyword
list: match each keyword (fuzzy fallback on a miss) and intersect the key sets;
the empty keyword list yields the empty set (§4.3; an autocomplete context with
no preceding keywords produces an empty result set). -/
def internal_search_and {K : Type} [DecidableEq K] (si : SearchIndex K)
    (keywords : List KW) : List K :=
  match keywords with
  | [] => []
  | k :: rest =>
    rest.foldl
      (fun acc kw => acc.filter (fun key => key ∈ keyword_search_with_fallback si kw))
      (keyword_search_with_fallback si k)

/-- The same `And` search under the name used by `src/simple/and/autocomplete.rs`. -/
abbrev internal_and_search {K : Type} [DecidableEq K] (si : SearchIndex K)
    (keywords : List KW) : List K :=
  internal_search_and si keywords

/-- Modelled from the spec: the scored-pair form of the fuzzy autocomplete
dispatcher — the candidate (keyword, key-set) pairs in score-descending order
(§4.4, §4.5; keyword-only form: `strsim_autocomplete`). -/
def strsim_autocomplete_pairs {K : Type} (si : SearchIndex K)
    (user_keyword : KW) : List (KW × List K) :=
  if 0 < si.strsim_length ∧ user_keyword.length < si.strsim_length then []
  else
    match si.strsim_type with
    | none => []
    | some t =>
      strsim_autocomplete_scored si (si.simFn t)
        (user_keyword.take si.strsim_length) user_keyword

/-- Modelled from the spec: `internal_autocomplete_keyword` — the candidate
(keyword, key-set) pairs for a partial keyword: the prefix range of the sorted
map, or the fuzzy matcher's best candidates when the prefix range is empty
(§4.4). -/
def internal_autocomplete_keyword {K : Type} (si : SearchIndex K)
    (keyword : KW) : List (KW × List K) :=
  let pr := rangeScan si.b_tree_map keyword
  if pr.isEmpty then strsim_autocomplete_pairs si keyword else pr

/-- Modelled from the spec: `autocomplete_keyword` — the keyword completions
used by `Global` autocomplete: the candidate keywords capped at
`maximum_autocomplete_results` (§4.4). -/
def autocomplete_keyword {K : Type} (si : SearchIndex K) (keyword : KW) :
    List KW :=
  ((internal_autocomplete_keyword si keyword).map (fun p => p.1)).take
    si.maximum_autocomplete_results

/-- `and_autocomplete` from `src/simple/and/autocomplete.rs`.  The source
builds each returned string by swapping the candidate keyword into a
placeholder slot pushed after the context keywords and joining with spaces; the
net effect for candidate `c` is `joinSpace (context ++ [c])`. -/
def and_autocomplete {K : Type} [DecidableEq K] (si : SearchIndex K) (s : KW) :
    List KW :=
  let keywords := si.string_keywords s false
  match popLast keywords with
  | none => []
  | some (context, last_keyword) =>
    let search_results := internal_and_search si context
    let autocompletions := internal_autocomplete_keyword si last_keyword
    let kept : List KW :=
      if search_results.isEmpty then
        (autocompletions.take si.maximum_autocomplete_results).map (fun p => p.1)
      else
        ((autocompletions.filter
            (fun p => p.2.any (fun key => key ∈ search_results))).take
          si.maximum_autocomplete_results).map (fun p => p.1)
    kept.map (fun c => joinSpace (context ++ [c]))

/-- `autocomplete_global` from `src/simple/autocomplete/global.rs` (same
placeholder-swap loop as `and_autocomplete` for the output strings). -/
def autocomplete_global {K : Type} (si : SearchIndex K) (s : KW) : List KW :=
  let keywords := si.string_keywords s false
  match popLast keywords with
  | none => []
  | some (context, last_keyword) =>
    (autocomplete_keyword si last_keyword).map
      (fun c => joinSpace (context ++ [c]))

/-- `search_live` from `src/simple/search/live.rs`: pop the last keyword, `And`
search the remaining context, collect the candidate key sets into a
`BTreeSet<&BTreeSet<K>>`, then either flatten (no context keywords) or
filter each candidate key set by the context result before flattening, taking
at most `maximum_search_results` elements of the flattened stream and
collecting them into a `BTreeSet`. -/
def search_live {K : Type} [LinearOrder K] (si : SearchIndex K) (s : KW) :
    List K :=
  let keywords := si.string_keywords s false
  match popLast keywords with
  | none => []
  | some (context, last_keyword) =>
    let search_results := internal_search_and si context
    let autocomplete_options : List (List K) :=
      btreeSetOfList
        ((internal_autocomplete_keyword si last_keyword).map (fun p => p.2))
    match context.length with
    | 0 =>
      btreeSetOfList
        (autocomplete_options.flatten.take si.maximum_search_results)
    | _ + 1 =>
      btreeSetOfList
        (((autocomplete_options.map
            (fun ks => ks.filter (fun key => key ∈ search_results))).flatten).take
          si.maximum_search_results)

/-- **C8.** A query that tokenizes to zero keywords (the empty query included)
yields the empty key set from `search_live` and the empty completion list from
`autocomplete_global` and `and_autocomplete`; all three return ordinary empty
sequences — no error is signalled. -/
theorem empty_tokenization_empty_results {K : Type} [LinearOrder K]
    (si : SearchIndex K) (s : KW) (htok : si.string_keywords s false = []) :
    search_live si s = [] ∧ autocomplete_global si s = [] ∧
      and_autocomplete si s = [] := by
  refine ⟨?_, ?_, ?_⟩
  · simp only [search_live, htok, popLast_nil]
  · simp only [autocomplete_global, htok, popLast_nil]
  · simp only [and_autocomplete, htok, popLast_nil]

/-- Witness for C8 at a concrete input (`witnessBase` tokenizes everything to
zero keywords). -/
theorem empty_tokenization_empty_results_witness :
    search_live witnessBase "x".toList = [] ∧
      autocomplete_global witnessBase "x".toList = [] ∧
      and_autocomplete witnessBase "x".toList = [] :=
  empty_tokenization_empty_results witnessBase "x".toList rfl

/-- Concrete index refuting C1 as stated: the context keyword `zzz` matches no
record, so the And-search of the context is empty. -/
def c1Idx : SearchIndex Nat :=
  { witnessBase with
      b_tree_map := [("apple".toList, [1])]
      string_keywords := fun _ _ => ["zzz".toList, "ap".toList] }

/-- Counterexample to C1 as stated: on the query `zzz ap` the context
`["zzz"]` is non-empty and its And-search result is empty — hence disjoint
from the key set of every candidate — yet `and_autocomplete` returns the
completion `zzz apple` (whose candidate key set `[1]` is disjoint from the
empty And-search result). -/
theorem and_autocomplete_context_counterexample :
    c1Idx.string_keywords "zzz ap".toList false
        = ["zzz".toList] ++ ["ap".toList] ∧
    internal_and_search c1Idx ["zzz".toList] = [] ∧
    and_autocomplete c1Idx "zzz ap".toList = ["zzz apple".toList] := by
  refine ⟨rfl, rfl, by decide⟩

/-- **C1 (amended).** Context-scoped autocomplete never returns a completion
built from a candidate keyword whose key set is disjoint from the And-search
result of the context keywords, **provided that And-search result is
non-empty** (the source skips the context filter exactly when the context
And-search result is empty — not when the context keyword list is empty — and
then returns unfiltered completions). -/
theorem and_autocomplete_context_amended {K : Type} [DecidableEq K]
    (si : SearchIndex K) (s : KW) (context : List KW) (last_keyword : KW)
    (htok : si.string_keywords s false = context ++ [last_keyword])
    (hne : internal_and_search si context ≠ []) :
    ∀ out ∈ and_autocomplete si s,
      ∃ p ∈ internal_autocomplete_keyword si last_keyword,
        out = joinSpace (context ++ [p.1]) ∧
        ∃ key ∈ p.2, key ∈ internal_and_search si context := by
  intro out hout
  have hie : (internal_and_search si context).isEmpty = false := by
    cases h : internal_and_search si context with
    | nil => exact absurd h hne
    | cons a l => rfl
  simp only [and_autocomplete, htok, popLast_concat, hie, Bool.false_eq_true,
    if_false] at hout
  obtain ⟨c, hc, rfl⟩ := List.mem_map.mp hout
  obtain ⟨p, hp, rfl⟩ := List.mem_map.mp hc
  have hp2 := List.mem_filter.mp (List.mem_of_mem_take hp)
  refine ⟨p, hp2.1, rfl, ?_⟩
  have hany := hp2.2
  simp only [List.any_eq_true, decide_eq_true_eq] at hany
  exact hany

/-- Concrete index for the C1 witness: context keyword matching record 1. -/
def c1WIdx : SearchIndex Nat :=
  { witnessBase with
      b_tree_map := [("apple".toList, [1]), ("good".toList, [1])]
      string_keywords := fun _ _ => ["good".toList, "ap".toList] }

/-- Witness for the amended C1 at a concrete input. -/
theorem and_autocomplete_context_amended_witness :
    ∃ p ∈ internal_autocomplete_keyword c1WIdx "ap".toList,
      "good apple".toList = joinSpace (["good".toList] ++ [p.1]) ∧
      ∃ key ∈ p.2, key ∈ internal_and_search c1WIdx ["good".toList] :=
  and_autocomplete_context_amended c1WIdx "good ap".toList ["good".toList]
    "ap".toList rfl (by decide) "good apple".toList (by decide)

/-- **C6.** For every query with at least one keyword: every string returned by
`autocomplete_global` equals the context keywords followed by one candidate
keyword joined with single spaces, in candidate order (the output is exactly
the candidate list mapped through the join); `and_autocomplete` likewise
returns exactly its surviving candidates — the candidates kept by the context
filter when the context And-search result is non-empty, capped at
`maximum_autocomplete_results` — mapped through the join in candidate order
(so in particular every output is built from one surviving candidate, and at
most `maximum_autocomplete_results` strings are returned). -/
theorem autocomplete_output_format {K : Type} [DecidableEq K]
    (si : SearchIndex K) (s : KW) (context : List KW) (last_keyword : KW)
    (htok : si.string_keywords s false = context ++ [last_keyword]) :
    autocomplete_global si s
        = (autocomplete_keyword si last_keyword).map
            (fun c => joinSpace (context ++ [c])) ∧
    and_autocomplete si s
        = ((if (internal_and_search si context).isEmpty then
              internal_autocomplete_keyword si last_keyword
            else
              (internal_autocomplete_keyword si last_keyword).filter
                (fun p => p.2.any
                  (fun key => key ∈ internal_and_search si context))).take
            si.maximum_autocomplete_results).map
          (fun p => joinSpace (context ++ [p.1])) ∧
    (∀ out ∈ and_autocomplete si s,
      ∃ p ∈ internal_autocomplete_keyword si last_keyword,
        out = joinSpace (context ++ [p.1]) ∧
        ((internal_and_search si context).isEmpty = false →
          p.2.any (fun key => key ∈ internal_and_search si context) = true)) ∧
    (and_autocomplete si s).length ≤ si.maximum_autocomplete_results := by
  refine ⟨?_, ?_, ?_, ?_⟩
  · simp only [autocomplete_global, htok, popLast_concat]
  · simp only [and_autocomplete, htok, popLast_concat]
    cases (internal_and_search si context).isEmpty with
    | true => simp [List.map_map, Function.comp_def]
    | false => simp [List.map_map, Function.comp_def]
  · intro out hout
    simp only [and_autocomplete, htok, popLast_concat] at hout
    cases hie : (internal_and_search si context).isEmpty with
    | true =>
      rw [hie, if_pos rfl] at hout
      obtain ⟨c, hc, rfl⟩ := List.mem_map.mp hout
      obtain ⟨p, hp, rfl⟩ := List.mem_map.mp hc
      refine ⟨p, List.mem_of_mem_take hp, rfl, fun h => ?_⟩
      exact Bool.noConfusion h
    | false =>
      simp only [hie, Bool.false_eq_true, if_false] at hout
      obtain ⟨c, hc, rfl⟩ := List.mem_map.mp hout
      obtain ⟨p, hp, rfl⟩ := List.mem_map.mp hc
      have hp2 := List.mem_filter.mp (List.mem_of_mem_take hp)
      exact ⟨p, hp2.1, rfl, fun _ => by simpa using hp2.2⟩
  · simp only [and_autocomplete, htok, popLast_concat]
    rw [List.length_map]
    split
    · rw [List.length_map]
      exact List.length_take_le _ _
    · rw [List.length_map]
      exact List.length_take_le _ _

/-- Witness for C6 at a concrete input. -/
theorem autocomplete_output_format_witness :
    autocomplete_global c1WIdx "good ap".toList
        = (autocomplete_keyword c1WIdx "ap".toList).map
            (fun c => joinSpace (["good".toList] ++ [c])) :=
  (autocomplete_output_format c1WIdx "good ap".toList ["good".toList]
    "ap".toList rfl).1

/-- **C2 (amended).** `search_live` pops the last keyword as the partial term
and returns keys drawn from the candidates' key sets — with a non-empty context
additionally restricted to the And-search result of the context keywords — by
taking at most `maximum_search_results` elements of the flattened stream of
(deduplicated, set-ordered) candidate key sets, duplicate occurrences counted
against the cap.  Consequently: every returned key is in some candidate's key
set (and in the context And-search result when the context is non-empty); at
most `maximum_search_results` keys are returned; and whenever the flattened
stream fits within the cap the result is exactly the union of the candidate key
sets (respectively, of their restrictions to the context And-search result). -/
theorem search_live_spec {K : Type} [LinearOrder K] (si : SearchIndex K)
    (s : KW) (context : List KW) (last_keyword : KW)
    (htok : si.string_keywords s false = context ++ [last_keyword]) :
    (∀ key ∈ search_live si s,
      (∃ p ∈ internal_autocomplete_keyword si last_keyword, key ∈ p.2) ∧
      (context ≠ [] → key ∈ internal_search_and si context)) ∧
    (search_live si s).length ≤ si.maximum_search_results ∧
    (context = [] →
      ((btreeSetOfList ((internal_autocomplete_keyword si last_keyword).map
          (fun p => p.2))).flatten).length ≤ si.maximum_search_results →
      ∀ key, key ∈ search_live si s ↔
        ∃ p ∈ internal_autocomplete_keyword si last_keyword, key ∈ p.2) ∧
    (context ≠ [] →
      (((btreeSetOfList ((internal_autocomplete_keyword si last_keyword).map
            (fun p => p.2))).map
          (fun ks => ks.filter
            (fun key => key ∈ internal_search_and si context))).flatten).length
          ≤ si.maximum_search_results →
      ∀ key, key ∈ search_live si s ↔
        (∃ p ∈ internal_autocomplete_keyword si last_keyword, key ∈ p.2) ∧
          key ∈ internal_search_and si context) := by
  have hopt : ∀ ks, ks ∈ btreeSetOfList
        ((internal_autocomplete_keyword si last_keyword).map (fun p => p.2)) ↔
      ∃ p ∈ internal_autocomplete_keyword si last_keyword, p.2 = ks := by
    intro ks
    rw [mem_btreeSetOfList]
    constructor
    · intro h
      obtain ⟨p, hp, rfl⟩ := List.mem_map.mp h
      exact ⟨p, hp, rfl⟩
    · rintro ⟨p, hp, rfl⟩
      exact List.mem_map.mpr ⟨p, hp, rfl⟩
  cases context with
  | nil =>
    have hsl : search_live si s = btreeSetOfList
        (((btreeSetOfList ((internal_autocomplete_keyword si last_keyword).map
          (fun p => p.2))).flatten).take si.maximum_search_results) := by
      simp only [search_live, htok, popLast_concat, List.length_nil]
    refine ⟨?_, ?_, ?_, ?_⟩
    · intro key hkey
      rw [hsl, mem_btreeSetOfList] at hkey
      have hfl := List.mem_of_mem_take hkey
      obtain ⟨ks, hks, hkks⟩ := List.mem_flatten.mp hfl
      obtain ⟨p, hp, rfl⟩ := (hopt ks).mp hks
      exact ⟨⟨p, hp, hkks⟩, fun hc => absurd rfl hc⟩
    · rw [hsl]
      exact le_trans (length_btreeSetOfList_le _) (List.length_take_le _ _)
    · intro _ hlen key
      rw [hsl, List.take_of_length_le hlen, mem_btreeSetOfList,
        List.mem_flatten]
      constructor
      · rintro ⟨ks, hks, hkks⟩
        obtain ⟨p, hp, rfl⟩ := (hopt ks).mp hks
        exact ⟨p, hp, hkks⟩
      · rintro ⟨p, hp, hkey⟩
        exact ⟨p.2, (hopt p.2).mpr ⟨p, hp, rfl⟩, hkey⟩
    · intro hc
      exact absurd rfl hc
  | cons c0 crest =>
    have hsl : search_live si s = btreeSetOfList
        ((((btreeSetOfList ((internal_autocomplete_keyword si last_keyword).map
            (fun p => p.2))).map
          (fun ks => ks.filter
            (fun key => key ∈ internal_search_and si (c0 :: crest)))).flatten).take
          si.maximum_search_results) := by
      simp only [search_live, htok, popLast_concat, List.length_cons]
    refine ⟨?_, ?_, ?_, ?_⟩
    · intro key hkey
      rw [hsl, mem_btreeSetOfList] at hkey
      have hfl := List.mem_of_mem_take hkey
      obtain ⟨fks, hfks, hkks⟩ := List.mem_flatten.mp hfl
      obtain ⟨ks, hks, rfl⟩ := List.mem_map.mp hfks
      have hmem := List.mem_filter.mp hkks
      obtain ⟨p, hp, rfl⟩ := (hopt ks).mp hks
      exact ⟨⟨p, hp, hmem.1⟩, fun _ => by simpa using hmem.2⟩
    · rw [hsl]
      exact le_trans (length_btreeSetOfList_le _) (List.length_take_le _ _)
    · intro hc
      cases hc
    · intro _ hlen key
      rw [hsl, List.take_of_length_le hlen, mem_btreeSetOfList,
        List.mem_flatten]
      constructor
      · rintro ⟨fks, hfks, hkks⟩
        obtain ⟨ks, hks, rfl⟩ := List.mem_map.mp hfks
        have hmem := List.mem_filter.mp hkks
        obtain ⟨p, hp, rfl⟩ := (hopt ks).mp hks
        exact ⟨⟨p, hp, hmem.1⟩, by simpa using hmem.2⟩
      · rintro ⟨⟨p, hp, hkey⟩, hand⟩
        refine ⟨p.2.filter
          (fun key => key ∈ internal_search_and si (c0 :: crest)), ?_, ?_⟩
        · exact List.mem_map.mpr ⟨p.2, (hopt p.2).mpr ⟨p, hp, rfl⟩, rfl⟩
        · exact List.mem_filter.mpr ⟨hkey, by simpa using hand⟩

/-- Concrete index refuting C2 as stated: two candidate key sets share key 1. -/
def c2Idx : SearchIndex Nat :=
  { witnessBase with
      b_tree_map := [("ta".toList, [1, 2]), ("tb".toList, [1, 3])]
      maximum_search_results := 3
      string_keywords := fun _ _ => ["t".toList] }

/-- Counterexample to C2 as stated: the query `t` has zero context keywords,
the union of the candidates' key sets is `{1, 2, 3}` — which fits within
`maximum_search_results = 3`, so truncation cannot remove anything — yet
`search_live` returns only `{1, 2}`: the `take` is applied to the flattened
stream `1, 2, 1, 3` with the duplicate occurrence of key 1 counted against the
cap. -/
theorem search_live_truncation_counterexample :
    c2Idx.string_keywords "t".toList false = [] ++ ["t".toList] ∧
    c2Idx.maximum_search_results = 3 ∧
    btreeSetOfList (((internal_autocomplete_keyword c2Idx "t".toList).map
        (fun p => p.2)).flatten) = [1, 2, 3] ∧
    search_live c2Idx "t".toList = [1, 2] := by
  refine ⟨rfl, rfl, by decide, by decide⟩

/-- Witness for the amended C2 at a concrete input. -/
theorem search_live_spec_witness :
    (search_live c2Idx "t".toList).length ≤ c2Idx.maximum_search_results :=
  (search_live_spec c2Idx "t".toList [] "t".toList rfl).2.1

/-! ## Select2 adapter (claim C7) -/

/-- Modelled from the spec: the Select2 `Request` (§6: "a foreign query
object"; `Request::query_term` is not in the snapshot) — reduced to its one
observable, the derived search term, a function of the configured dump
keyword. -/
structure Request where
  query_term : Option KW → Option KW

/-- The `max_keys_per_keyword` accessor (module listed in `mod.rs`, body not in
the snapshot): the configured cap. -/
def SearchIndex.max_keys_per_keyword {K : Type} (si : SearchIndex K) : Nat :=
  si.maximum_keys_per_keyword

/-- Modelled from the spec: `Or` search — union of the per-keyword matches,
keys ranked by descending count of distinct matched keywords, ties broken by
ascending key order (§4.3). -/
def internal_search_or {K : Type} [LinearOrder K] (si : SearchIndex K)
    (keywords : List KW) : List K :=
  let matched := keywords.map (fun kw => keyword_search_with_fallback si kw)
  let cnt : K → Nat := fun key => (matched.filter (fun ks => key ∈ ks)).length
  List.insertionSort
    (fun a b => cnt b < cnt a ∨ (cnt a = cnt b ∧ a ≤ b))
    (btreeSetOfList matched.flatten)

/-- Modelled from the spec: `search_with` — dispatch on the requested search
type with an explicit result cap overriding the configured one (§6, §4.3).
Only the `Live` arm is exercised by the claims below. -/
def search_with {K : Type} [LinearOrder K] (si : SearchIndex K)
    (ty : SearchType) (mx : Nat) (s : KW) : List K :=
  match ty with
  | SearchType.Keyword => (internal_keyword_search si s).take mx
  | SearchType.Or => (internal_search_or si (si.string_keywords s true)).take mx
  | SearchType.And => (internal_search_and si (si.string_keywords s true)).take mx
  | SearchType.Live => search_live { si with maximum_search_results := mx } s

/-- `search_select2` from `src/select2/search_select2.rs` (the `println!`
debug line is output noise with no effect on the returned value). -/
def search_select2 {K : Type} [LinearOrder K] (si : SearchIndex K)
    (request : Request) : List K :=
  match request.query_term si.dump_keyword with
  | some query_term =>
      search_with si SearchType.Live si.max_keys_per_keyword query_term
  | none => []

/-- **C7.** For every Select2 request, `search_select2` returns exactly the
result of a single `search_with(SearchType::Live, max_keys_per_keyword(), q)`
call when the request yields a query term `q`, and the empty list of keys when
it yields none. -/
theorem search_select2_refines_live {K : Type} [LinearOrder K]
    (si : SearchIndex K) (request : Request) :
    (∀ q, request.query_term si.dump_keyword = some q →
      search_select2 si request
        = search_with si SearchType.Live si.max_keys_per_keyword q) ∧
    (request.query_term si.dump_keyword = none →
      search_select2 si request = []) := by
  constructor
  · intro q hq
    simp only [search_select2, hq]
  · intro hq
    simp only [search_select2, hq]

/-- Witness for C7 at a concrete input. -/
theorem search_select2_refines_live_witness :
    search_select2 witnessBase ⟨fun _ => none⟩ = [] :=
  (search_select2_refines_live witnessBase ⟨fun _ => none⟩).2 rfl

/-! ## Builder round-trip (claim C9) -/

/-- `SearchIndexBuilder` from `src/simple/builder.rs`: the same configuration
fields as the contemporaneous `SearchIndex`.  The modelling fields
(`string_keywords`, `simFn`, and the older `maximum_autocomplete_results`) are
carried along like every other configuration field, mirroring that each crate
version's builder copies every field of its `SearchIndex`. -/
structure SearchIndexBuilder (K : Type) where
  b_tree_map : List (KW × List K)
  search_type : SearchType
  autocomplete_type : AutocompleteType
  strsim_type : Option StrSimType
  strsim_length : Nat
  strsim_minimum_score : ℚ
  fuzzy_minimum_score : ℚ
  split_pattern : Option (List Char)
  case_sensitive : Bool
  minimum_keyword_length : Nat
  maximum_keyword_length : Nat
  maximum_string_length : Option Nat
  exclude_keywords : Option (List KW)
  maximum_autocomplete_options : Nat
  maximum_autocomplete_results : Nat
  maximum_search_results : Nat
  maximum_keys_per_keyword : Nat
  dump_keyword : Option KW
  string_keywords : KW → Bool → List KW
  simFn : StrSimType → KW → KW → ℚ

/-- `From<SearchIndex<K>> for SearchIndexBuilder<K>` (`src/simple/builder.rs`):
a field-by-field copy. -/
def builderOfIndex {K : Type} (search_index : SearchIndex K) :
    SearchIndexBuilder K where
  b_tree_map := search_index.b_tree_map
  search_type := search_index.search_type
  autocomplete_type := search_index.autocomplete_type
  strsim_type := search_index.strsim_type
  strsim_length := search_index.strsim_length
  strsim_minimum_score := search_index.strsim_minimum_score
  fuzzy_minimum_score := search_index.fuzzy_minimum_score
  split_pattern := search_index.split_pattern
  case_sensitive := search_index.case_sensitive
  minimum_keyword_length := search_index.minimum_keyword_length
  maximum_keyword_length := search_index.maximum_keyword_length
  maximum_string_length := search_index.maximum_string_length
  exclude_keywords := search_index.exclude_keywords
  maximum_autocomplete_options := search_index.maximum_autocomplete_options
  maximum_autocomplete_results := search_index.maximum_autocomplete_results
  maximum_search_results := search_index.maximum_search_results
  maximum_keys_per_keyword := search_index.maximum_keys_per_keyword
  dump_keyword := search_index.dump_keyword
  string_keywords := search_index.string_keywords
  simFn := search_index.simFn

/-- `From<SearchIndexBuilder<K>> for SearchIndex<K>`, i.e.
`SearchIndexBuilder::build` (`src/simple/builder.rs`): the inverse
field-by-field copy. -/
def SearchIndexBuilder.build {K : Type} (search_index : SearchIndexBuilder K) :
    SearchIndex K where
  b_tree_map := search_index.b_tree_map
  search_type := search_index.search_type
  autocomplete_type := search_index.autocomplete_type
  strsim_type := search_index.strsim_type
  strsim_length := search_index.strsim_length
  strsim_minimum_score := search_index.strsim_minimum_score
  fuzzy_minimum_score := search_index.fuzzy_minimum_score
  split_pattern := search_index.split_pattern
  case_sensitive := search_index.case_sensitive
  minimum_keyword_length := search_index.minimum_keyword_length
  maximum_keyword_length := search_index.maximum_keyword_length
  maximum_string_length := search_index.maximum_string_length
  exclude_keywords := search_index.exclude_keywords
  maximum_autocomplete_options := search_index.maximum_autocomplete_options
  maximum_autocomplete_results := search_index.maximum_autocomplete_results
  maximum_search_results := search_index.maximum_search_results
  maximum_keys_per_keyword := search_index.maximum_keys_per_keyword
  dump_keyword := search_index.dump_keyword
  string_keywords := search_index.string_keywords
  simFn := search_index.simFn

/-- **C9.** Converting a `SearchIndex` to a `SearchIndexBuilder` and building
again is the identity: every field survives the round-trip unchanged. -/
theorem builder_round_trip_identity {K : Type} (si : SearchIndex K) :
    (builderOfIndex si).build = si := rfl
